import Mathlib

/-!
Verification development for the thin-merge engine.

The Rust sources embedded here are `src/stream.rs` (`MappingStream`),
`src/merge.rs` (`RangeMergeIterator`, `merge`, `dump_single_device`,
`update_device_details`, `merge_thins_`, `build_output_device`,
`get_device_root_and_details`) and `src/mapping_iterator.rs`
(`MappingIterator`, whose `next_range` routine is not present in the
sources and is modelled from the specification).

Machine integers (`u64`, `u32`) are embedded as `Nat`.  All theorems about
the merge carry well-formedness hypotheses (ranges ordered, disjoint and of
positive length) under which none of the source's unsigned arithmetic can
wrap, so `Nat` arithmetic agrees with `u64` arithmetic on every input the
theorems quantify over.

The IO layer (engines, B-tree decoding, checksums, the bounded channel) is
not modelled; an iterator backed by IO is embedded as the list of values it
will yield, and the producer/consumer channel as the list of batches sent
across it.  `Result<T>` becomes `Except String T`; error strings are kept
verbatim (including the source's "delta too lone" spelling).
-/

/-- `thinp::thin::block_time::BlockTime`: a (data block, time) pair. -/
structure BlockTime where
  block : Nat
  time : Nat
  deriving Repr, DecidableEq

/-- One range mapping, the `(u64, BlockTime, u64)` triple used throughout
`stream.rs` and `merge.rs`: `key` is the first thin block of the run,
`bt.block` the first data block, `bt.time` the shared time stamp and
`len` the number of blocks in the run. -/
structure MRange where
  key : Nat
  bt : BlockTime
  len : Nat
  deriving Repr, DecidableEq

/-- `MappingStream` (stream.rs): a one-range-lookahead cursor over
`MappingIterator`.  It is embedded as the list of ranges the underlying
iterator has yet to yield; the head of the list plays the role of the
`current` field (`current` is `None` exactly when the list is empty,
which matches `new`/`next_range`, and `next_range` is list tail). -/
abbrev MappingStream := List MRange

namespace MappingStream

/-- `MappingStream::more_mappings`. -/
def more_mappings (s : MappingStream) : Bool := !s.isEmpty

/-- `MappingStream::get_mapping`. -/
def get_mapping (s : MappingStream) : Option MRange := s.head?

/-- `MappingStream::consume` (stream.rs lines 31-50): compare `delta` with
the length of the head range; `Greater` errors with "delta too lone",
`Equal` emits the head and advances the iterator, `Less` emits a prefix of
the head and shifts the head by `delta`. -/
def consume (s : MappingStream) (delta : Nat) :
    Except String (Option MRange × MappingStream) :=
  match s with
  | [] => .ok (none, [])
  | r :: rest =>
    if r.len < delta then
      .error "delta too lone"
    else if delta = r.len then
      .ok (some r, rest)
    else
      .ok (some ⟨r.key, r.bt, delta⟩,
           ⟨r.key + delta, ⟨r.bt.block + delta, r.bt.time⟩, r.len - delta⟩ :: rest)

/-- `MappingStream::skip` (stream.rs lines 53-69): `consume` without
returning the range. -/
def skip (s : MappingStream) (delta : Nat) : Except String MappingStream :=
  match s with
  | [] => .ok []
  | r :: rest =>
    if r.len < delta then
      .error "delta too lone"
    else if delta = r.len then
      .ok rest
    else
      .ok (⟨r.key + delta, ⟨r.bt.block + delta, r.bt.time⟩, r.len - delta⟩ :: rest)

/-- `MappingStream::consume_all` (stream.rs lines 71-79). -/
def consume_all (s : MappingStream) : Option MRange × MappingStream :=
  match s with
  | [] => (none, [])
  | r :: rest => (some r, rest)

/-- `MappingStream::skip_all` (stream.rs lines 82-88). -/
def skip_all (s : MappingStream) : MappingStream := s.tail

end MappingStream

namespace RangeMergeIterator

/-- `RangeMergeIterator::ends_before_started` (merge.rs line 97). -/
def ends_before_started (left right : MRange) : Prop :=
  left.key + left.len ≤ right.key

instance (l r : MRange) : Decidable (ends_before_started l r) :=
  inferInstanceAs (Decidable (l.key + l.len ≤ r.key))

/-- `RangeMergeIterator::overlays_tail` (merge.rs line 101). -/
def overlays_tail (base overlay : MRange) : Prop := base.key < overlay.key

instance (b o : MRange) : Decidable (overlays_tail b o) :=
  inferInstanceAs (Decidable (b.key < o.key))

/-- `RangeMergeIterator::overlays_head` (merge.rs line 105). -/
def overlays_head (base overlay : MRange) : Prop :=
  overlay.key + overlay.len < base.key + base.len

instance (b o : MRange) : Decidable (overlays_head b o) :=
  inferInstanceAs (Decidable (o.key + o.len < b.key + b.len))

/-- `RangeMergeIterator::overlays_all` (merge.rs line 109). -/
def overlays_all (base overlay : MRange) : Prop :=
  base.key + base.len ≤ overlay.key + overlay.len

instance (b o : MRange) : Decidable (overlays_all b o) :=
  inferInstanceAs (Decidable (b.key + b.len ≤ o.key + o.len))

/-- The inner `while Self::overlays_all(base_map, snap_map)` loop of
`RangeMergeIterator::next` (merge.rs lines 130-136): repeatedly
`skip_all` the base stream while its head is fully covered up to the end
of the fixed snapshot head, stopping when the base is exhausted. -/
def skipCovered (base : MappingStream) (snapMap : MRange) : MappingStream :=
  match base with
  | [] => []
  | baseMap :: rest =>
    if overlays_all baseMap snapMap then skipCovered rest snapMap
    else baseMap :: rest

theorem skipCovered_length_le (base : MappingStream) (snapMap : MRange) :
    (skipCovered base snapMap).length ≤ base.length := by
  induction base with
  | nil => simp [skipCovered]
  | cons b rest ih =>
    by_cases h : overlays_all b snapMap
    · simpa [skipCovered, h] using Nat.le_succ_of_le ih
    · simp [skipCovered, h]

/-- `RangeMergeIterator::next` (merge.rs lines 113-149), with the iterator
state `(base_stream, snap_stream)` passed and returned explicitly.  The
first four classification branches return directly from the loop; the
fifth runs the inner `skipCovered` loop and re-enters the outer `while`,
which is rendered as the recursive call.  The trailing drain of whichever
stream is left corresponds to the two `if ... more_mappings` blocks after
the loop. -/
def next (base snap : MappingStream) :
    Except String (Option MRange × MappingStream × MappingStream) :=
  match base, snap with
  | baseMap :: baseRest, snapMap :: snapRest =>
    if ends_before_started snapMap baseMap then
      match MappingStream.consume_all (snapMap :: snapRest) with
      | (r, snap') => .ok (r, baseMap :: baseRest, snap')
    else if ends_before_started baseMap snapMap then
      match MappingStream.consume_all (baseMap :: baseRest) with
      | (r, base') => .ok (r, base', snapMap :: snapRest)
    else if overlays_tail baseMap snapMap then
      match MappingStream.consume (baseMap :: baseRest) (snapMap.key - baseMap.key) with
      | .error e => .error e
      | .ok (r, base') => .ok (r, base', snapMap :: snapRest)
    else if h : overlays_head baseMap snapMap then
      match MappingStream.skip (baseMap :: baseRest) (snapMap.key + snapMap.len - baseMap.key) with
      | .error e => .error e
      | .ok base' =>
        match MappingStream.consume (snapMap :: snapRest) snapMap.len with
        | .error e => .error e
        | .ok (r, snap') => .ok (r, base', snap')
    else
      next (skipCovered (baseMap :: baseRest) snapMap) (snapMap :: snapRest)
  | baseMap :: baseRest, [] =>
    match MappingStream.consume_all (baseMap :: baseRest) with
    | (r, base') => .ok (r, base', [])
  | [], snapMap :: snapRest =>
    match MappingStream.consume_all (snapMap :: snapRest) with
    | (r, snap') => .ok (r, [], snap')
  | [], [] => .ok (none, [], [])
termination_by base.length
decreasing_by
  have hall : overlays_all baseMap snapMap := Nat.le_of_not_lt h
  rw [skipCovered, if_pos hall]
  exact Nat.lt_succ_of_le (skipCovered_length_le baseRest snapMap)

theorem next_case1 {bm sm : MRange} {br sr : List MRange}
    (h1 : ends_before_started sm bm) :
    next (bm :: br) (sm :: sr) = .ok (some sm, bm :: br, sr) := by
  rw [next]; simp [h1, MappingStream.consume_all]

theorem next_case2 {bm sm : MRange} {br sr : List MRange}
    (h1 : ¬ ends_before_started sm bm) (h2 : ends_before_started bm sm) :
    next (bm :: br) (sm :: sr) = .ok (some bm, br, sm :: sr) := by
  rw [next]; simp [h1, h2, MappingStream.consume_all]

theorem next_case3 {bm sm : MRange} {br sr : List MRange}
    (h1 : ¬ ends_before_started sm bm) (h2 : ¬ ends_before_started bm sm)
    (h3 : overlays_tail bm sm) :
    next (bm :: br) (sm :: sr) =
      .ok (some ⟨bm.key, bm.bt, sm.key - bm.key⟩,
           ⟨bm.key + (sm.key - bm.key), ⟨bm.bt.block + (sm.key - bm.key), bm.bt.time⟩,
            bm.len - (sm.key - bm.key)⟩ :: br,
           sm :: sr) := by
  have h2' : ¬ (bm.key + bm.len ≤ sm.key) := h2
  have h3' : bm.key < sm.key := h3
  have hne : ¬ (sm.key - bm.key = bm.len) := by omega
  have hnlt : ¬ (bm.len < sm.key - bm.key) := by omega
  rw [next]
  simp [h1, h2, h3, MappingStream.consume, hne, hnlt]

theorem next_case4 {bm sm : MRange} {br sr : List MRange}
    (h1 : ¬ ends_before_started sm bm) (h2 : ¬ ends_before_started bm sm)
    (h3 : ¬ overlays_tail bm sm) (h4 : overlays_head bm sm) :
    next (bm :: br) (sm :: sr) =
      .ok (some sm,
           ⟨bm.key + (sm.key + sm.len - bm.key),
            ⟨bm.bt.block + (sm.key + sm.len - bm.key), bm.bt.time⟩,
            bm.len - (sm.key + sm.len - bm.key)⟩ :: br,
           sr) := by
  have h1' : ¬ (sm.key + sm.len ≤ bm.key) := h1
  have h4' : sm.key + sm.len < bm.key + bm.len := h4
  have hne : ¬ (sm.key + sm.len - bm.key = bm.len) := by omega
  have hnlt : ¬ (bm.len < sm.key + sm.len - bm.key) := by omega
  have hsl : ¬ (sm.len < sm.len) := by omega
  rw [next]
  simp [h1, h2, h3, h4, MappingStream.skip, MappingStream.consume,
    hne, hnlt, hsl]

theorem next_case5 {bm sm : MRange} {br sr : List MRange}
    (h1 : ¬ ends_before_started sm bm) (h2 : ¬ ends_before_started bm sm)
    (h3 : ¬ overlays_tail bm sm) (h4 : ¬ overlays_head bm sm) :
    next (bm :: br) (sm :: sr) = next (skipCovered (bm :: br) sm) (sm :: sr) := by
  rw [next]; simp [h1, h2, h3, h4]

theorem next_drain_base {bm : MRange} {br : List MRange} :
    next (bm :: br) [] = .ok (some bm, br, []) := by
  rw [next]; simp [MappingStream.consume_all]

theorem next_drain_snap {sm : MRange} {sr : List MRange} :
    next [] (sm :: sr) = .ok (some sm, [], sr) := by
  rw [next]; simp [MappingStream.consume_all]

theorem next_nil : next [] [] = .ok (none, [], []) := by
  simp [next]

end RangeMergeIterator

/-- Total number of thin blocks still mapped by a stream (the "remaining
length" used for the termination argument). -/
def sumLen (l : List MRange) : Nat := (l.map MRange.len).sum

/-- Combined measure for the merge loop: remaining blocks plus remaining
range count of both streams.  Every range the loop emits removes at least
one block or one (possibly empty) range, so this strictly decreases. -/
def mergeMeasure (b s : MappingStream) : Nat :=
  sumLen b + sumLen s + b.length + s.length

namespace RangeMergeIterator

theorem skipCovered_sumLen_le (base : MappingStream) (snapMap : MRange) :
    sumLen (skipCovered base snapMap) ≤ sumLen base := by
  induction base with
  | nil => simp [skipCovered]
  | cons b rest ih =>
    by_cases h : overlays_all b snapMap
    · simp only [skipCovered, if_pos h]
      refine le_trans ih ?_
      simp [sumLen]
    · simp [skipCovered, h]

theorem next_total (base snap : MappingStream) :
    ∃ r b' s', next base snap = .ok (r, b', s') ∧
      (r = none → base = [] ∧ snap = [] ∧ b' = [] ∧ s' = []) ∧
      (r.isSome → mergeMeasure b' s' < mergeMeasure base snap) := by
  have main : ∀ (n : Nat) (base snap : MappingStream), base.length ≤ n →
      ∃ r b' s', next base snap = .ok (r, b', s') ∧
        (r = none → base = [] ∧ snap = [] ∧ b' = [] ∧ s' = []) ∧
        (r.isSome → mergeMeasure b' s' < mergeMeasure base snap) := by
    intro n
    induction n with
    | zero =>
      intro base snap hlen
      have hb : base = [] := List.length_eq_zero.mp (Nat.le_zero.mp hlen)
      subst hb
      cases snap with
      | nil => exact ⟨none, [], [], next_nil, by simp, by simp⟩
      | cons sm sr =>
        refine ⟨some sm, [], sr, next_drain_snap, by simp, ?_⟩
        intro _
        simp [mergeMeasure, sumLen]
        omega
    | succ n ih =>
      intro base snap hlen
      cases base with
      | nil =>
        cases snap with
        | nil => exact ⟨none, [], [], next_nil, by simp, by simp⟩
        | cons sm sr =>
          refine ⟨some sm, [], sr, next_drain_snap, by simp, ?_⟩
          intro _
          simp [mergeMeasure, sumLen]
          omega
      | cons bm br =>
        cases snap with
        | nil =>
          refine ⟨some bm, br, [], next_drain_base, by simp, ?_⟩
          intro _
          simp [mergeMeasure, sumLen]
          omega
        | cons sm sr =>
          by_cases h1 : ends_before_started sm bm
          · refine ⟨some sm, bm :: br, sr, next_case1 h1, by simp, ?_⟩
            intro _
            simp [mergeMeasure, sumLen]
            omega
          · by_cases h2 : ends_before_started bm sm
            · refine ⟨some bm, br, sm :: sr, next_case2 h1 h2, by simp, ?_⟩
              intro _
              simp [mergeMeasure, sumLen]
              omega
            · by_cases h3 : overlays_tail bm sm
              · refine ⟨_, _, _, next_case3 h1 h2 h3, by simp, ?_⟩
                intro _
                have hgt : bm.key < sm.key := h3
                have hlt : sm.key < bm.key + bm.len := Nat.lt_of_not_le h2
                simp [mergeMeasure, sumLen]
                omega
              · by_cases h4 : overlays_head bm sm
                · refine ⟨_, _, _, next_case4 h1 h2 h3 h4, by simp, ?_⟩
                  intro _
                  have hgt : bm.key < sm.key + sm.len := Nat.lt_of_not_le h1
                  simp [mergeMeasure, sumLen]
                  omega
                · have hall : overlays_all bm sm := Nat.le_of_not_lt h4
                  have hsk : skipCovered (bm :: br) sm = skipCovered br sm := by
                    rw [skipCovered, if_pos hall]
                  have hlen' : (skipCovered (bm :: br) sm).length ≤ n := by
                    rw [hsk]
                    exact le_trans (skipCovered_length_le br sm)
                      (Nat.le_of_succ_le_succ hlen)
                  obtain ⟨r, b', s', heq, hnone, hdec⟩ :=
                    ih (skipCovered (bm :: br) sm) (sm :: sr) hlen'
                  refine ⟨r, b', s', by rw [next_case5 h1 h2 h3 h4]; exact heq, ?_, ?_⟩
                  · intro hr
                    obtain ⟨_, habs, _⟩ := hnone hr
                    exact absurd habs (by simp)
                  · intro hr
                    refine lt_of_lt_of_le (hdec hr) ?_
                    have hl := skipCovered_length_le (bm :: br) sm
                    have hs := skipCovered_sumLen_le (bm :: br) sm
                    simp only [mergeMeasure]
                    omega
  exact main base.length base snap le_rfl

end RangeMergeIterator

/-- The consumer loop of `merge` (merge.rs lines 196-207 / 221-226) reads
`iter.next()` until it yields `None`; `mergeAll` is that iteration,
collecting every emitted range in order. -/
def mergeAll (base snap : MappingStream) : Except String (List MRange) :=
  match h : RangeMergeIterator.next base snap with
  | .error e => .error e
  | .ok (none, _, _) => .ok []
  | .ok (some r, b', s') =>
    match mergeAll b' s' with
    | .error e => .error e
    | .ok rest => .ok (r :: rest)
termination_by mergeMeasure base snap
decreasing_by
  obtain ⟨r0, b0, s0, heq, _, hdec⟩ := RangeMergeIterator.next_total base snap
  rw [h] at heq
  cases heq
  exact hdec rfl

/-! ### Coverage and lookup semantics of range lists -/

/-- Thin block `k` lies inside range `r`. -/
def inRange (r : MRange) (k : Nat) : Prop := r.key ≤ k ∧ k < r.key + r.len

instance (r : MRange) (k : Nat) : Decidable (inRange r k) :=
  inferInstanceAs (Decidable (r.key ≤ k ∧ k < r.key + r.len))

/-- The data block/time that range `r` assigns to a thin block `k` inside
it: the data run is contiguous, so `k` maps to `bt.block + (k - key)`. -/
def valAt (r : MRange) (k : Nat) : BlockTime :=
  ⟨r.bt.block + (k - r.key), r.bt.time⟩

/-- Some range of `l` covers thin block `k`. -/
def covers (l : List MRange) (k : Nat) : Prop := ∃ r ∈ l, inRange r k

instance (l : List MRange) (k : Nat) : Decidable (covers l k) :=
  inferInstanceAs (Decidable (∃ r ∈ l, inRange r k))

/-- Some range of `l` maps thin block `k` to `v`. -/
def mapsTo (l : List MRange) (k : Nat) (v : BlockTime) : Prop :=
  ∃ r ∈ l, inRange r k ∧ valAt r k = v

/-- Every range of `l` starts at `n` or later. -/
def leStart (n : Nat) (l : List MRange) : Prop := ∀ r ∈ l, n ≤ r.key

/-- A well-formed mapping stream, as produced by a device's B-tree
(spec §3): ranges are in strictly increasing key order, non-overlapping,
and of positive length. -/
def WfStream (l : List MRange) : Prop :=
  List.Chain' (fun a b => a.key + a.len ≤ b.key) l ∧ ∀ r ∈ l, 1 ≤ r.len

/-- The intended value of the merged device at thin block `k`: the
snapshot's mapping when the snapshot covers `k`, otherwise the base's. -/
def MergedAt (base snap : List MRange) (k : Nat) (v : BlockTime) : Prop :=
  mapsTo snap k v ∨ (¬ covers snap k ∧ mapsTo base k v)

theorem sumLen_nil : sumLen [] = 0 := rfl

theorem sumLen_cons (r : MRange) (l : List MRange) :
    sumLen (r :: l) = r.len + sumLen l := by
  simp [sumLen]

theorem mapsTo_nil (k : Nat) (v : BlockTime) : ¬ mapsTo [] k v := by
  simp [mapsTo]

theorem mapsTo_cons (r : MRange) (l : List MRange) (k : Nat) (v : BlockTime) :
    mapsTo (r :: l) k v ↔ (inRange r k ∧ valAt r k = v) ∨ mapsTo l k v := by
  simp [mapsTo]

theorem covers_nil (k : Nat) : ¬ covers [] k := by
  simp [covers]

theorem covers_cons (r : MRange) (l : List MRange) (k : Nat) :
    covers (r :: l) k ↔ inRange r k ∨ covers l k := by
  simp [covers]

theorem covers_iff_exists_mapsTo (l : List MRange) (k : Nat) :
    covers l k ↔ ∃ v, mapsTo l k v := by
  constructor
  · rintro ⟨r, hr, hin⟩
    exact ⟨valAt r k, r, hr, hin, rfl⟩
  · rintro ⟨v, r, hr, hin, _⟩
    exact ⟨r, hr, hin⟩

theorem le_of_mapsTo {n : Nat} {l : List MRange} {k : Nat} {v : BlockTime}
    (hle : leStart n l) (h : mapsTo l k v) : n ≤ k := by
  obtain ⟨r, hr, ⟨h1, _⟩, _⟩ := h
  exact le_trans (hle r hr) h1

theorem not_mapsTo_of_lt {n : Nat} {l : List MRange} {k : Nat} {v : BlockTime}
    (hle : leStart n l) (hk : k < n) : ¬ mapsTo l k v := by
  intro h
  exact absurd (le_of_mapsTo hle h) (Nat.not_le_of_lt hk)

theorem not_covers_of_lt {n : Nat} {l : List MRange} {k : Nat}
    (hle : leStart n l) (hk : k < n) : ¬ covers l k := by
  intro h
  obtain ⟨v, hv⟩ := (covers_iff_exists_mapsTo l k).mp h
  exact not_mapsTo_of_lt hle hk hv

theorem leStart_nil (n : Nat) : leStart n [] := by
  intro r hr
  cases hr

theorem leStart_cons (n : Nat) (x : MRange) (l : List MRange) :
    leStart n (x :: l) ↔ n ≤ x.key ∧ leStart n l := by
  constructor
  · intro h
    exact ⟨h x (by simp), fun r hr => h r (by simp [hr])⟩
  · rintro ⟨h1, h2⟩ r hr
    rcases List.mem_cons.mp hr with h | h
    · exact h ▸ h1
    · exact h2 r h

theorem leStart_mono {m n : Nat} {l : List MRange} (h : m ≤ n)
    (hle : leStart n l) : leStart m l :=
  fun r hr => le_trans h (hle r hr)

theorem wf_nil : WfStream [] := ⟨List.chain'_nil, by simp⟩

theorem leStart_of_chain' {x : MRange} {l : List MRange}
    (h : List.Chain' (fun a b => a.key + a.len ≤ b.key) (x :: l)) :
    leStart (x.key + x.len) l := by
  induction l generalizing x with
  | nil => exact leStart_nil _
  | cons y ys ih =>
    have h1 : x.key + x.len ≤ y.key := List.chain'_cons.mp h |>.1
    have h2 := List.chain'_cons.mp h |>.2
    rw [leStart_cons]
    refine ⟨h1, leStart_mono ?_ (ih h2)⟩
    omega

theorem wf_cons (x : MRange) (l : List MRange) :
    WfStream (x :: l) ↔ WfStream l ∧ 1 ≤ x.len ∧ leStart (x.key + x.len) l := by
  constructor
  · rintro ⟨hc, hl⟩
    refine ⟨⟨(List.chain'_cons'.mp hc).2, fun r hr => hl r (by simp [hr])⟩,
      hl x (by simp), leStart_of_chain' hc⟩
  · rintro ⟨⟨hc, hl⟩, hx, hle⟩
    refine ⟨List.chain'_cons'.mpr ⟨?_, hc⟩, ?_⟩
    · intro y hy
      cases l with
      | nil => cases hy
      | cons z zs =>
        have hzy : z = y := by simpa using hy
        exact hzy ▸ hle z (by simp)
    · intro r hr
      rcases List.mem_cons.mp hr with h | h
      · exact h ▸ hx
      · exact hl r h

theorem skipCovered_wf {l : List MRange} (sm : MRange) (h : WfStream l) :
    WfStream (RangeMergeIterator.skipCovered l sm) := by
  induction l with
  | nil => exact h
  | cons x xs ih =>
    by_cases hx : RangeMergeIterator.overlays_all x sm
    · rw [RangeMergeIterator.skipCovered, if_pos hx]
      exact ih ((wf_cons x xs).mp h).1
    · rw [RangeMergeIterator.skipCovered, if_neg hx]
      exact h

theorem skipCovered_leStart {n : Nat} {l : List MRange} (sm : MRange)
    (h : leStart n l) : leStart n (RangeMergeIterator.skipCovered l sm) := by
  induction l with
  | nil => exact h
  | cons x xs ih =>
    by_cases hx : RangeMergeIterator.overlays_all x sm
    · rw [RangeMergeIterator.skipCovered, if_pos hx]
      exact ih ((leStart_cons n x xs).mp h).2
    · rw [RangeMergeIterator.skipCovered, if_neg hx]
      exact h

/-- Ranges dropped by the inner covered-skip loop lie entirely inside the
snapshot head `sm`, so for keys outside `sm` the base stream's mapping is
unchanged. -/
theorem skipCovered_mapsTo_iff {l : List MRange} {sm : MRange} {k : Nat}
    {v : BlockTime} (hle : leStart sm.key l) (hk : ¬ inRange sm k) :
    mapsTo l k v ↔ mapsTo (RangeMergeIterator.skipCovered l sm) k v := by
  induction l with
  | nil => exact Iff.rfl
  | cons x xs ih =>
    rw [leStart_cons] at hle
    by_cases hx : RangeMergeIterator.overlays_all x sm
    · rw [RangeMergeIterator.skipCovered, if_pos hx]
      rw [mapsTo_cons, ← ih hle.2]
      have hxe : x.key + x.len ≤ sm.key + sm.len := hx
      have hnx : ¬ inRange x k := by
        intro hin
        exact hk ⟨le_trans hle.1 hin.1, lt_of_lt_of_le hin.2 hxe⟩
      simp [hnx]
    · rw [RangeMergeIterator.skipCovered, if_neg hx]

namespace RangeMergeIterator

/-- One-step specification of `RangeMergeIterator::next` on well-formed
streams that emits a range: well-formedness is preserved, the emitted range
is nonempty, starts no earlier than both streams and ends no later than
every remaining range, the remaining total length strictly shrinks, and the
snapshot-over-base merged value relation is conserved. -/
theorem next_some_spec :
    ∀ (base snap : MappingStream), WfStream base → WfStream snap →
    ∀ r b' s', next base snap = .ok (some r, b', s') →
      WfStream b' ∧ WfStream s' ∧ 1 ≤ r.len ∧
      leStart (r.key + r.len) b' ∧ leStart (r.key + r.len) s' ∧
      (∀ n, leStart n base → leStart n snap → n ≤ r.key) ∧
      sumLen b' + sumLen s' < sumLen base + sumLen snap ∧
      (∀ k v, MergedAt base snap k v ↔
        ((inRange r k ∧ valAt r k = v) ∨ MergedAt b' s' k v)) := by
  have main : ∀ (n : Nat) (base snap : MappingStream), base.length ≤ n →
      WfStream base → WfStream snap →
      ∀ r b' s', next base snap = .ok (some r, b', s') →
        WfStream b' ∧ WfStream s' ∧ 1 ≤ r.len ∧
        leStart (r.key + r.len) b' ∧ leStart (r.key + r.len) s' ∧
        (∀ n, leStart n base → leStart n snap → n ≤ r.key) ∧
        sumLen b' + sumLen s' < sumLen base + sumLen snap ∧
        (∀ k v, MergedAt base snap k v ↔
          ((inRange r k ∧ valAt r k = v) ∨ MergedAt b' s' k v)) := by
    intro n
    induction n with
    | zero =>
      intro base snap hlen hwfb hwfs r b' s' heq
      have hb : base = [] := List.length_eq_zero.mp (Nat.le_zero.mp hlen)
      subst hb
      cases snap with
      | nil => rw [next_nil] at heq; cases heq
      | cons sm sr =>
        rw [next_drain_snap] at heq
        obtain ⟨rfl, rfl, rfl⟩ : sm = r ∧ [] = b' ∧ sr = s' := by
          cases heq; exact ⟨rfl, rfl, rfl⟩
        obtain ⟨hws, hsl, hss⟩ := (wf_cons sm sr).mp hwfs
        refine ⟨wf_nil, hws, hsl, leStart_nil _, hss, ?_, ?_, ?_⟩
        · intro n _ hs
          exact ((leStart_cons n sm sr).mp hs).1
        · rw [sumLen_cons, sumLen_nil]
          omega
        · intro k v
          simp only [MergedAt, mapsTo_cons, covers_cons, covers_nil]
          have hnil : ¬ mapsTo [] k v := mapsTo_nil k v
          constructor
          · rintro ((h | h) | ⟨_, h⟩)
            · exact Or.inl h
            · exact Or.inr (Or.inl h)
            · exact absurd h hnil
          · rintro (h | (h | ⟨hnc, h⟩))
            · exact Or.inl (Or.inl h)
            · exact Or.inl (Or.inr h)
            · exact absurd h hnil
    | succ n ih =>
      intro base snap hlen hwfb hwfs r b' s' heq
      cases base with
      | nil =>
        cases snap with
        | nil => rw [next_nil] at heq; cases heq
        | cons sm sr =>
          rw [next_drain_snap] at heq
          obtain ⟨rfl, rfl, rfl⟩ : sm = r ∧ [] = b' ∧ sr = s' := by
            cases heq; exact ⟨rfl, rfl, rfl⟩
          obtain ⟨hws, hsl, hss⟩ := (wf_cons sm sr).mp hwfs
          refine ⟨wf_nil, hws, hsl, leStart_nil _, hss, ?_, ?_, ?_⟩
          · intro n _ hs
            exact ((leStart_cons n sm sr).mp hs).1
          · rw [sumLen_cons, sumLen_nil]
            omega
          · intro k v
            simp only [MergedAt, mapsTo_cons, covers_cons, covers_nil]
            have hnil : ¬ mapsTo [] k v := mapsTo_nil k v
            constructor
            · rintro ((h | h) | ⟨_, h⟩)
              · exact Or.inl h
              · exact Or.inr (Or.inl h)
              · exact absurd h hnil
            · rintro (h | (h | ⟨hnc, h⟩))
              · exact Or.inl (Or.inl h)
              · exact Or.inl (Or.inr h)
              · exact absurd h hnil
      | cons bm br =>
        obtain ⟨hwb, hbl, hbs⟩ := (wf_cons bm br).mp hwfb
        have hbase0 : leStart bm.key (bm :: br) :=
          (leStart_cons _ _ _).mpr ⟨le_rfl, leStart_mono (by omega) hbs⟩
        cases snap with
        | nil =>
          rw [next_drain_base] at heq
          obtain ⟨rfl, rfl, rfl⟩ : bm = r ∧ br = b' ∧ [] = s' := by
            cases heq; exact ⟨rfl, rfl, rfl⟩
          refine ⟨hwb, wf_nil, hbl, hbs, leStart_nil _, ?_, ?_, ?_⟩
          · intro n hb _
            exact ((leStart_cons n bm br).mp hb).1
          · rw [sumLen_cons, sumLen_nil]
            omega
          · intro k v
            simp only [MergedAt, mapsTo_cons, mapsTo_nil, covers_nil]
            constructor
            · rintro (h | ⟨_, h | h⟩)
              · cases h
              · exact Or.inl h
              · exact Or.inr (Or.inr ⟨fun hf => hf, h⟩)
            · rintro (h | (h | ⟨_, h⟩))
              · exact Or.inr ⟨fun hf => hf, Or.inl h⟩
              · cases h
              · exact Or.inr ⟨fun hf => hf, Or.inr h⟩
        | cons sm sr =>
          obtain ⟨hws, hsl, hss⟩ := (wf_cons sm sr).mp hwfs
          have hsnap0 : leStart sm.key (sm :: sr) :=
            (leStart_cons _ _ _).mpr ⟨le_rfl, leStart_mono (by omega) hss⟩
          by_cases h1 : ends_before_started sm bm
          · -- case 1: snapshot head entirely before the base head
            have h1' : sm.key + sm.len ≤ bm.key := h1
            rw [next_case1 h1] at heq
            obtain ⟨rfl, rfl, rfl⟩ : sm = r ∧ bm :: br = b' ∧ sr = s' := by
              cases heq; exact ⟨rfl, rfl, rfl⟩
            refine ⟨hwfb, hws, hsl, ?_, hss, ?_, ?_, ?_⟩
            · exact leStart_mono h1' hbase0
            · intro n _ hs
              exact ((leStart_cons n sm sr).mp hs).1
            · rw [sumLen_cons sm sr]
              omega
            · intro k v
              simp only [MergedAt, mapsTo_cons, covers_cons]
              constructor
              · rintro ((h | h) | ⟨hnc, h⟩)
                · exact Or.inl h
                · exact Or.inr (Or.inl h)
                · exact Or.inr (Or.inr ⟨(not_or.mp hnc).2, h⟩)
              · rintro (h | (h | ⟨hnc, h⟩))
                · exact Or.inl (Or.inl h)
                · exact Or.inl (Or.inr h)
                · have hk_ge : bm.key ≤ k := by
                    rcases h with ⟨hin, _⟩ | h
                    · exact hin.1
                    · exact le_trans (Nat.le_add_right _ _) (le_of_mapsTo hbs h)
                  have hni : ¬ inRange sm k := by
                    intro hin
                    have hx := hin.2
                    omega
                  exact Or.inr ⟨not_or.mpr ⟨hni, hnc⟩, h⟩
          · by_cases h2 : ends_before_started bm sm
            · -- case 2: base head entirely before the snapshot head
              have h2' : bm.key + bm.len ≤ sm.key := h2
              rw [next_case2 h1 h2] at heq
              obtain ⟨rfl, rfl, rfl⟩ : bm = r ∧ br = b' ∧ sm :: sr = s' := by
                cases heq; exact ⟨rfl, rfl, rfl⟩
              refine ⟨hwb, hwfs, hbl, hbs, leStart_mono h2' hsnap0, ?_, ?_, ?_⟩
              · intro n hb _
                exact ((leStart_cons n bm br).mp hb).1
              · rw [sumLen_cons bm br]
                omega
              · intro k v
                simp only [MergedAt, mapsTo_cons]
                constructor
                · rintro (h | ⟨hnc, h | h⟩)
                  · exact Or.inr (Or.inl h)
                  · exact Or.inl h
                  · exact Or.inr (Or.inr ⟨hnc, h⟩)
                · rintro (h | (h | ⟨hnc, h⟩))
                  · have hnc : ¬ covers (sm :: sr) k :=
                      not_covers_of_lt hsnap0 (lt_of_lt_of_le h.1.2 h2')
                    exact Or.inr ⟨hnc, Or.inl h⟩
                  · exact Or.inl h
                  · exact Or.inr ⟨hnc, Or.inr h⟩
            · by_cases h3 : overlays_tail bm sm
              · -- case 3: base starts first; emit the uncovered base prefix
                have h3' : bm.key < sm.key := h3
                have h2' : sm.key < bm.key + bm.len := Nat.lt_of_not_le h2
                rw [next_case3 h1 h2 h3] at heq
                obtain ⟨rfl, rfl, rfl⟩ :
                    (⟨bm.key, bm.bt, sm.key - bm.key⟩ : MRange) = r ∧
                    (⟨bm.key + (sm.key - bm.key),
                      ⟨bm.bt.block + (sm.key - bm.key), bm.bt.time⟩,
                      bm.len - (sm.key - bm.key)⟩ : MRange) :: br = b' ∧
                    sm :: sr = s' := by
                  cases heq; exact ⟨rfl, rfl, rfl⟩
                have hkey : bm.key + (sm.key - bm.key) = sm.key := by omega
                refine ⟨?_, hwfs, ?_, ?_, ?_, ?_, ?_, ?_⟩
                · refine (wf_cons _ _).mpr ⟨hwb, ?_, ?_⟩
                  · simp only []
                    omega
                  · simp only []
                    refine leStart_mono ?_ hbs
                    omega
                · simp only []
                  omega
                · rw [leStart_cons]
                  constructor
                  · simp only []
                    omega
                  · refine leStart_mono ?_ hbs
                    dsimp only
                    omega
                · simp only []
                  rw [hkey]
                  exact leStart_mono (by omega) hsnap0
                · intro n hb _
                  exact ((leStart_cons n bm br).mp hb).1
                · simp only [sumLen_cons]
                  omega
                · intro k v
                  have hvr : valAt ⟨bm.key, bm.bt, sm.key - bm.key⟩ k = valAt bm k := rfl
                  have hinr : inRange (⟨bm.key, bm.bt, sm.key - bm.key⟩ : MRange) k ↔
                      bm.key ≤ k ∧ k < sm.key := by
                    simp only [inRange]
                    omega
                  have hinb' : inRange (⟨bm.key + (sm.key - bm.key),
                      ⟨bm.bt.block + (sm.key - bm.key), bm.bt.time⟩,
                      bm.len - (sm.key - bm.key)⟩ : MRange) k ↔
                      sm.key ≤ k ∧ k < bm.key + bm.len := by
                    simp only [inRange]
                    omega
                  have hvb' : sm.key ≤ k →
                      valAt ⟨bm.key + (sm.key - bm.key),
                        ⟨bm.bt.block + (sm.key - bm.key), bm.bt.time⟩,
                        bm.len - (sm.key - bm.key)⟩ k = valAt bm k := by
                    intro hk
                    have harith : bm.bt.block + (sm.key - bm.key) +
                        (k - (bm.key + (sm.key - bm.key))) =
                        bm.bt.block + (k - bm.key) := by omega
                    simp [valAt, harith]
                  simp only [MergedAt, mapsTo_cons]
                  constructor
                  · rintro (h | ⟨hnc, h | h⟩)
                    · exact Or.inr (Or.inl h)
                    · -- the base head mapping splits at sm.key
                      rcases Nat.lt_or_ge k sm.key with hk | hk
                      · refine Or.inl ⟨hinr.mpr ⟨h.1.1, hk⟩, ?_⟩
                        rw [hvr]
                        exact h.2
                      · refine Or.inr (Or.inr ⟨hnc, Or.inl ⟨hinb'.mpr ⟨hk, h.1.2⟩, ?_⟩⟩)
                        rw [hvb' hk]
                        exact h.2
                    · exact Or.inr (Or.inr ⟨hnc, Or.inr h⟩)
                  · rintro (⟨hin, hv⟩ | (h | ⟨hnc, h | h⟩))
                    · rw [hinr] at hin
                      have hnc : ¬ covers (sm :: sr) k :=
                        not_covers_of_lt hsnap0 hin.2
                      refine Or.inr ⟨hnc, Or.inl ⟨⟨hin.1, by omega⟩, ?_⟩⟩
                      rw [← hvr]
                      exact hv
                    · exact Or.inl h
                    · rw [hinb'] at h
                      refine Or.inr ⟨hnc, Or.inl ⟨⟨by omega, h.1.2⟩, ?_⟩⟩
                      rw [← hvb' h.1.1]
                      exact h.2
                    · exact Or.inr ⟨hnc, Or.inr h⟩
              · by_cases h4 : overlays_head bm sm
                · -- case 4: snapshot head inside the base head; emit it and
                  -- skip the overlaid part of the base
                  have h1' : bm.key < sm.key + sm.len := Nat.lt_of_not_le h1
                  have h3' : sm.key ≤ bm.key := Nat.le_of_not_lt h3
                  have h4' : sm.key + sm.len < bm.key + bm.len := h4
                  rw [next_case4 h1 h2 h3 h4] at heq
                  obtain ⟨rfl, rfl, rfl⟩ :
                      sm = r ∧
                      (⟨bm.key + (sm.key + sm.len - bm.key),
                        ⟨bm.bt.block + (sm.key + sm.len - bm.key), bm.bt.time⟩,
                        bm.len - (sm.key + sm.len - bm.key)⟩ : MRange) :: br = b' ∧
                      sr = s' := by
                    cases heq; exact ⟨rfl, rfl, rfl⟩
                  refine ⟨?_, hws, hsl, ?_, hss, ?_, ?_, ?_⟩
                  · refine (wf_cons _ _).mpr ⟨hwb, ?_, ?_⟩
                    · dsimp only
                      omega
                    · dsimp only
                      refine leStart_mono ?_ hbs
                      omega
                  · rw [leStart_cons]
                    constructor
                    · dsimp only
                      omega
                    · refine leStart_mono ?_ hbs
                      omega
                  · intro n _ hs
                    exact ((leStart_cons n sm sr).mp hs).1
                  · simp only [sumLen_cons]
                    omega
                  · intro k v
                    have hinb'' : inRange (⟨bm.key + (sm.key + sm.len - bm.key),
                        ⟨bm.bt.block + (sm.key + sm.len - bm.key), bm.bt.time⟩,
                        bm.len - (sm.key + sm.len - bm.key)⟩ : MRange) k ↔
                        sm.key + sm.len ≤ k ∧ k < bm.key + bm.len := by
                      simp only [inRange]
                      omega
                    have hvb'' : sm.key + sm.len ≤ k →
                        valAt ⟨bm.key + (sm.key + sm.len - bm.key),
                          ⟨bm.bt.block + (sm.key + sm.len - bm.key), bm.bt.time⟩,
                          bm.len - (sm.key + sm.len - bm.key)⟩ k = valAt bm k := by
                      intro hk
                      have harith : bm.bt.block + (sm.key + sm.len - bm.key) +
                          (k - (bm.key + (sm.key + sm.len - bm.key))) =
                          bm.bt.block + (k - bm.key) := by omega
                      simp [valAt, harith]
                    simp only [MergedAt, mapsTo_cons, covers_cons]
                    constructor
                    · rintro ((h | h) | ⟨hnc, h | h⟩)
                      · exact Or.inl h
                      · exact Or.inr (Or.inl h)
                      · have hni := (not_or.mp hnc).1
                        have hncs := (not_or.mp hnc).2
                        have hk2 : sm.key + sm.len ≤ k := by
                          rcases h with ⟨⟨ha, hb⟩, _⟩
                          by_contra hcon
                          exact hni ⟨by omega, by omega⟩
                        refine Or.inr (Or.inr ⟨hncs,
                          Or.inl ⟨hinb''.mpr ⟨hk2, h.1.2⟩, ?_⟩⟩)
                        rw [hvb'' hk2]
                        exact h.2
                      · exact Or.inr (Or.inr ⟨(not_or.mp hnc).2, Or.inr h⟩)
                    · rintro (h | (h | ⟨hnc, h | h⟩))
                      · exact Or.inl (Or.inl h)
                      · exact Or.inl (Or.inr h)
                      · rw [hinb''] at h
                        have hni : ¬ inRange sm k := by
                          intro hin
                          have hx := hin.2
                          omega
                        refine Or.inr ⟨not_or.mpr ⟨hni, hnc⟩,
                          Or.inl ⟨⟨by omega, h.1.2⟩, ?_⟩⟩
                        rw [← hvb'' h.1.1]
                        exact h.2
                      · have hk := le_of_mapsTo hbs h
                        have hni : ¬ inRange sm k := by
                          intro hin
                          have hx := hin.2
                          omega
                        exact Or.inr ⟨not_or.mpr ⟨hni, hnc⟩, Or.inr h⟩
                · -- case 5: the base head is fully covered; it is skipped and
                  -- the loop re-examines the shortened base
                  have h3' : sm.key ≤ bm.key := Nat.le_of_not_lt h3
                  have hall : overlays_all bm sm := Nat.le_of_not_lt h4
                  rw [next_case5 h1 h2 h3 h4] at heq
                  have hles : leStart sm.key (bm :: br) := leStart_mono h3' hbase0
                  have hwfsk : WfStream (skipCovered (bm :: br) sm) :=
                    skipCovered_wf sm hwfb
                  have hlensk : (skipCovered (bm :: br) sm).length ≤ n := by
                    rw [skipCovered, if_pos hall]
                    exact le_trans (skipCovered_length_le br sm)
                      (Nat.le_of_succ_le_succ hlen)
                  obtain ⟨S1, S2, S3, S4, S5, S6, S7, S8⟩ :=
                    ih _ _ hlensk hwfsk hwfs r b' s' heq
                  refine ⟨S1, S2, S3, S4, S5, ?_, ?_, ?_⟩
                  · intro m hmb hms
                    exact S6 m (skipCovered_leStart sm hmb) hms
                  · have hle2 : sumLen (skipCovered (bm :: br) sm) ≤ sumLen (bm :: br) :=
                      skipCovered_sumLen_le _ _
                    omega
                  · intro k v
                    rw [← S8 k v]
                    simp only [MergedAt]
                    constructor
                    · rintro (h | ⟨hn, h⟩)
                      · exact Or.inl h
                      · have hni : ¬ inRange sm k := fun hin =>
                          hn ((covers_cons _ _ _).mpr (Or.inl hin))
                        exact Or.inr ⟨hn, (skipCovered_mapsTo_iff hles hni).mp h⟩
                    · rintro (h | ⟨hn, h⟩)
                      · exact Or.inl h
                      · have hni : ¬ inRange sm k := fun hin =>
                          hn ((covers_cons _ _ _).mpr (Or.inl hin))
                        exact Or.inr ⟨hn, (skipCovered_mapsTo_iff hles hni).mpr h⟩
  intro base snap hwfb hwfs r b' s' heq
  exact main base.length base snap le_rfl hwfb hwfs r b' s' heq

end RangeMergeIterator

namespace RangeMergeIterator

theorem mergeAll_none {base snap b0 s0 : MappingStream}
    (h : next base snap = .ok (none, b0, s0)) :
    mergeAll base snap = .ok [] := by
  rw [mergeAll]
  split
  · rename_i e heq
    rw [h] at heq
    cases heq
  · rfl
  · rename_i r1 b1 s1 heq
    rw [h] at heq
    simp at heq

theorem mergeAll_step {base snap : MappingStream} {r : MRange}
    {b' s' : MappingStream} (h : next base snap = .ok (some r, b', s')) :
    mergeAll base snap = (mergeAll b' s').map (fun rest => r :: rest) := by
  rw [mergeAll]
  split
  · rename_i e heq
    rw [h] at heq
    cases heq
  · rename_i b1 s1 heq
    rw [h] at heq
    simp at heq
  · rename_i r1 b1 s1 heq
    rw [h] at heq
    obtain ⟨rfl, rfl, rfl⟩ : r = r1 ∧ b' = b1 ∧ s' = s1 := by
      cases heq
      exact ⟨rfl, rfl, rfl⟩
    rcases hm : mergeAll b' s' with e | rest <;> simp [hm, Except.map]

/-- Master correctness theorem for the merge iteration on well-formed
streams: it succeeds, the merged list maps exactly the snapshot-over-base
relation, and the output is ordered, disjoint and free of empty ranges. -/
theorem mergeAll_spec :
    ∀ (base snap : MappingStream), WfStream base → WfStream snap →
      ∃ merged, mergeAll base snap = .ok merged ∧
        (∀ k v, mapsTo merged k v ↔ MergedAt base snap k v) ∧
        List.Pairwise (fun a c => a.key + a.len ≤ c.key) merged ∧
        (∀ x ∈ merged, 1 ≤ x.len) ∧
        (∀ n, leStart n base → leStart n snap → leStart n merged) := by
  have main : ∀ (fuel : Nat) (base snap : MappingStream),
      mergeMeasure base snap ≤ fuel → WfStream base → WfStream snap →
      ∃ merged, mergeAll base snap = .ok merged ∧
        (∀ k v, mapsTo merged k v ↔ MergedAt base snap k v) ∧
        List.Pairwise (fun a c => a.key + a.len ≤ c.key) merged ∧
        (∀ x ∈ merged, 1 ≤ x.len) ∧
        (∀ n, leStart n base → leStart n snap → leStart n merged) := by
    intro fuel
    induction fuel with
    | zero =>
      intro base snap hm _ _
      have hlb : base.length + snap.length ≤ mergeMeasure base snap := by
        unfold mergeMeasure
        omega
      have hb : base = [] := List.length_eq_zero.mp (by omega)
      have hs : snap = [] := List.length_eq_zero.mp (by omega)
      subst hb
      subst hs
      refine ⟨[], mergeAll_none next_nil, ?_, by simp, by simp, ?_⟩
      · intro k v
        constructor
        · intro h
          exact absurd h (mapsTo_nil k v)
        · rintro (h | ⟨_, h⟩) <;> exact absurd h (mapsTo_nil k v)
      · intro n _ _
        exact leStart_nil n
    | succ fuel ih =>
      intro base snap hm hwb hws
      obtain ⟨r, b', s', heq, hnone, hdec⟩ := next_total base snap
      cases r with
      | none =>
        obtain ⟨rfl, rfl, -, -⟩ := hnone rfl
        refine ⟨[], mergeAll_none heq, ?_, by simp, by simp, ?_⟩
        · intro k v
          constructor
          · intro h
            exact absurd h (mapsTo_nil k v)
          · rintro (h | ⟨_, h⟩) <;> exact absurd h (mapsTo_nil k v)
        · intro n _ _
          exact leStart_nil n
      | some r =>
        obtain ⟨W1, W2, W3, W4, W5, W6, W7, W8⟩ :=
          next_some_spec base snap hwb hws r b' s' heq
        have hm' : mergeMeasure b' s' ≤ fuel := by
          have := hdec rfl
          omega
        obtain ⟨merged', hma, hmap, hpw, hlen1, hlb⟩ := ih b' s' hm' W1 W2
        refine ⟨r :: merged', ?_, ?_, ?_, ?_, ?_⟩
        · rw [mergeAll_step heq, hma]
          rfl
        · intro k v
          rw [mapsTo_cons, hmap k v, W8 k v]
        · refine List.pairwise_cons.mpr ⟨?_, hpw⟩
          intro x hx
          exact hlb (r.key + r.len) W4 W5 x hx
        · intro x hx
          rcases List.mem_cons.mp hx with rfl | hx
          · exact W3
          · exact hlen1 x hx
        · intro n hnb hns
          rw [leStart_cons]
          refine ⟨W6 n hnb hns, ?_⟩
          refine leStart_mono ?_ (hlb (r.key + r.len) W4 W5)
          have := W6 n hnb hns
          omega
  intro base snap hwb hws
  exact main (mergeMeasure base snap) base snap le_rfl hwb hws

end RangeMergeIterator

/-! ### Lookup of the mapping at a single thin block -/

/-- The mapping a range list assigns to thin block `k`: the value of the
first range containing `k` (unique when the list is pairwise disjoint). -/
def thinLookup (l : List MRange) (k : Nat) : Option BlockTime :=
  match l.find? (fun r => decide (inRange r k)) with
  | some r => some (valAt r k)
  | none => none

theorem thinLookup_eq_some_iff {l : List MRange} {k : Nat} {v : BlockTime}
    (hpw : List.Pairwise (fun a c => a.key + a.len ≤ c.key) l) :
    thinLookup l k = some v ↔ mapsTo l k v := by
  induction l with
  | nil => simp [thinLookup, mapsTo]
  | cons x xs ih =>
    obtain ⟨hx, hxs⟩ := List.pairwise_cons.mp hpw
    by_cases hin : inRange x k
    · rw [thinLookup, List.find?_cons_of_pos _ (by simpa using hin)]
      constructor
      · intro h
        refine (mapsTo_cons x xs k v).mpr (Or.inl ⟨hin, ?_⟩)
        simpa using h
      · intro h
        rcases (mapsTo_cons x xs k v).mp h with ⟨_, hv⟩ | ⟨r, hr, hrin, hrv⟩
        · simpa using hv
        · exfalso
          have h1 := hx r hr
          have h2 := hin.2
          have h3 := hrin.1
          omega
    · rw [thinLookup, List.find?_cons_of_neg _ (by simpa using hin)]
      rw [← thinLookup] at *
      rw [ih hxs, mapsTo_cons]
      constructor
      · exact Or.inr
      · rintro (⟨h, _⟩ | h)
        · exact absurd h hin
        · exact h

/-! ### Repeated calls of the merge iterator (termination, claim C8) -/

/-- `n + 1` successive calls of `RangeMergeIterator::next`, returning the
result of the last call. -/
def iterMerge : Nat → MappingStream × MappingStream →
    Except String (Option MRange × MappingStream × MappingStream)
  | 0, (b, s) => RangeMergeIterator.next b s
  | n + 1, (b, s) =>
    match RangeMergeIterator.next b s with
    | .error e => .error e
    | .ok (_, b', s') => iterMerge n (b', s')

/-! ### The restore pipeline (merge.rs `merge` / `dump_single_device`) -/

namespace ir

/-- `thinp::thin::ir::Map`. -/
structure Map where
  thin_begin : Nat
  data_begin : Nat
  time : Nat
  len : Nat
  deriving Repr, DecidableEq

/-- `thinp::thin::ir::Device`. -/
structure Device where
  dev_id : Nat
  mapped_blocks : Nat
  transaction : Nat
  creation_time : Nat
  snap_time : Nat
  deriving Repr, DecidableEq

end ir

/-- `thinp::thin::device_detail::DeviceDetail`. -/
structure DeviceDetail where
  mapped_blocks : Nat
  transaction_id : Nat
  creation_time : Nat
  snapshotted_time : Nat
  deriving Repr, DecidableEq

/-- `BUFFER_LEN` (merge.rs line 31). -/
def BUFFER_LEN : Nat := 1024

/-- The producer's packaging of an emitted range into an `ir::Map` record
(merge.rs lines 196-202). -/
def rangeToMap (r : MRange) : ir.Map :=
  ⟨r.key, r.bt.block, r.bt.time, r.len⟩

/-- The producer loop's batching (merge.rs lines 193-215): push runs into a
buffer, send it when it holds `BUFFER_LEN` runs, and send the final
partial batch when nonempty. -/
def toBatches (runs : List ir.Map) : List (List ir.Map) :=
  if h : runs = [] then []
  else runs.take BUFFER_LEN :: toBatches (runs.drop BUFFER_LEN)
termination_by runs.length
decreasing_by
  have hlen : runs.length ≠ 0 := fun hz => h (List.length_eq_zero.mp hz)
  rw [List.length_drop]
  have hpos : 0 < BUFFER_LEN := by norm_num [BUFFER_LEN]
  omega

/-- The consumer's accumulation of `mapped_blocks` (merge.rs lines
220-226): fold over received batches, adding `run.len` for every applied
run. -/
def consumeBatches (batches : List (List ir.Map)) : Nat :=
  batches.foldl (fun acc runs => runs.foldl (fun a run => a + run.len) acc) 0

/-- The output state relevant to the claims: the device record written by
`restorer.device_b`, the runs applied through `restorer.map` in order, and
the `mapped_blocks` field of the single details-leaf entry once the run
finishes. -/
structure OutMetadata where
  device : ir.Device
  mappings : List ir.Map
  details_mapped_blocks : Nat
  deriving Repr, DecidableEq

/-- `update_device_details` (merge.rs lines 154-174): rewrite the output's
single-entry details leaf, patching `values[0].mapped_blocks`. -/
def update_device_details (m : OutMetadata) (mapped_blocks : Nat) : OutMetadata :=
  { m with details_mapped_blocks := mapped_blocks }

/-- `merge` (merge.rs lines 176-240): drive `RangeMergeIterator` to
exhaustion, send the emitted runs across the channel in batches, apply
them while accumulating `mapped_blocks`, then patch the details leaf with
the accumulated total via `update_device_details`.  Before the patch the
details leaf holds `out_dev.mapped_blocks`, written by
`restorer.device_b(out_dev)`. -/
def merge (out_dev : ir.Device) (origin_tree snap_tree : List MRange) :
    Except String OutMetadata :=
  match mergeAll origin_tree snap_tree with
  | .error e => .error e
  | .ok emitted =>
    let batches := toBatches (emitted.map rangeToMap)
    let restored : OutMetadata :=
      { device := out_dev
        mappings := batches.flatten
        details_mapped_blocks := out_dev.mapped_blocks }
    .ok (update_device_details restored (consumeBatches batches))

/-- `dump_single_device` (merge.rs lines 242-302): stream the device's own
ranges (`MappingIterator::next_range`) through the same batching channel;
no `mapped_blocks` accumulation and no details patch happens, so the
details leaf keeps the value written from `out_dev`. -/
def dump_single_device (out_dev : ir.Device) (tree : List MRange) : OutMetadata :=
  let batches := toBatches (tree.map rangeToMap)
  { device := out_dev
    mappings := batches.flatten
    details_mapped_blocks := out_dev.mapped_blocks }

/-- `build_output_device` (merge.rs lines 385-393). -/
def build_output_device (dev_id : Nat) (details : DeviceDetail) : ir.Device :=
  { dev_id := dev_id
    mapped_blocks := details.mapped_blocks
    transaction := details.transaction_id
    creation_time := details.creation_time
    snap_time := details.snapshotted_time }

/-- Lookup in a `BTreeMap` modelled as an association list. -/
def mapLookup {α : Type} (m : List (Nat × α)) (k : Nat) : Option α :=
  match m.find? (fun p => decide (p.1 = k)) with
  | some p => some p.2
  | none => none

/-- `get_device_root_and_details` (merge.rs lines 357-369). -/
def get_device_root_and_details (dev_id : Nat) (roots : List (Nat × Nat))
    (details : List (Nat × DeviceDetail)) : Except String (Nat × DeviceDetail) :=
  match mapLookup roots dev_id with
  | none => .error "Unable to find mapping tree for the device"
  | some root =>
    match mapLookup details dev_id with
    | none => .error "Unable to find the details for the device"
    | some d => .ok (root, d)

/-- The input metadata as far as `merge_thins_` reads it: the top-level
mapping-tree and details-tree maps, and for every device-mapping root the
ordered range stream its leaves decode to. -/
structure InputMetadata where
  roots : List (Nat × Nat)
  details : List (Nat × DeviceDetail)
  trees : Nat → List MRange

/-- `merge_thins_` (merge.rs lines 395-452), with the output-superblock
construction elided (it copies input superblock fields and does not
interact with any claim): resolve the origin, then either dump a single
device (no snapshot id, or identical roots) or merge the two streams.
`rebase` only selects which device id and `DeviceDetail` seed the output
device record. -/
def merge_thins_ (md : InputMetadata) (origin_id : Nat) (snap_id : Option Nat)
    (rebase : Bool) : Except String OutMetadata :=
  match get_device_root_and_details origin_id md.roots md.details with
  | .error e => .error e
  | .ok (origin_root, origin_details) =>
    match snap_id with
    | some sid =>
      match get_device_root_and_details sid md.roots md.details with
      | .error e => .error e
      | .ok (snap_root, snap_details) =>
        let out_dev := if rebase then build_output_device sid snap_details
          else build_output_device origin_id origin_details
        if origin_root = snap_root then
          .ok (dump_single_device out_dev (md.trees origin_root))
        else
          merge out_dev (md.trees origin_root) (md.trees snap_root)
    | none =>
      .ok (dump_single_device (build_output_device origin_id origin_details)
        (md.trees origin_root))

/-! ### `MappingIterator::next_range` (modelled from the spec) -/

/-- Modelled from the spec: the run-extension loop of
`MappingIterator::next_range` (spec §4.2), whose implementation is not
among the sources (mapping_iterator.rs only contains the point-entry
cursor `get`/`step`).  Starting from a current run `(k0, v0)` of length
`len`, the run is extended while the next point entry `(k1, v1)` satisfies
`k1 == k0 + len && v1.block == v0.block + len && v1.time == v0.time`;
entries are the leaf entries in order, so coalescing crosses leaf
boundaries. -/
def takeRun (k0 : Nat) (v0 : BlockTime) (len : Nat) :
    List (Nat × BlockTime) → MRange × List (Nat × BlockTime)
  | [] => (⟨k0, v0, len⟩, [])
  | (k1, v1) :: rest =>
    if k1 = k0 + len ∧ v1.block = v0.block + len ∧ v1.time = v0.time then
      takeRun k0 v0 (len + 1) rest
    else
      (⟨k0, v0, len⟩, (k1, v1) :: rest)

/-- Modelled from the spec: `MappingIterator::next_range` over the sorted
point entries of the device's leaves: `None` at the end of the leaves,
otherwise the maximal coalesced run starting at the current entry together
with the remaining entries. -/
def next_range : List (Nat × BlockTime) → Option (MRange × List (Nat × BlockTime))
  | [] => none
  | (k0, v0) :: rest => some (takeRun k0 v0 1 rest)

/-- The point entries a run `r` stands for. -/
def runPoints (r : MRange) : List (Nat × BlockTime) :=
  (List.range r.len).map (fun i => (r.key + i, ⟨r.bt.block + i, r.bt.time⟩))

/-! ### Auxiliary lemmas for the claim theorems -/

theorem wf_pairwise {l : List MRange} (h : WfStream l) :
    List.Pairwise (fun a c => a.key + a.len ≤ c.key) l := by
  induction l with
  | nil => simp
  | cons x xs ih =>
    obtain ⟨hxs, _, hle⟩ := (wf_cons x xs).mp h
    exact List.pairwise_cons.mpr ⟨hle, ih hxs⟩

theorem mergeAll_isOk (base snap : MappingStream) :
    ∃ l, mergeAll base snap = .ok l := by
  have main : ∀ (fuel : Nat) (b s : MappingStream), mergeMeasure b s ≤ fuel →
      ∃ l, mergeAll b s = .ok l := by
    intro fuel
    induction fuel with
    | zero =>
      intro b s hm
      have hlb : b.length + s.length ≤ mergeMeasure b s := by
        unfold mergeMeasure
        omega
      have hb : b = [] := List.length_eq_zero.mp (by omega)
      have hs : s = [] := List.length_eq_zero.mp (by omega)
      subst hb
      subst hs
      exact ⟨[], RangeMergeIterator.mergeAll_none RangeMergeIterator.next_nil⟩
    | succ fuel ih =>
      intro b s hm
      obtain ⟨r, b', s', heq, hnone, hdec⟩ := RangeMergeIterator.next_total b s
      cases r with
      | none => exact ⟨[], RangeMergeIterator.mergeAll_none heq⟩
      | some r =>
        have hm' : mergeMeasure b' s' ≤ fuel := by
          have := hdec rfl
          omega
        obtain ⟨l, hl⟩ := ih b' s' hm'
        refine ⟨r :: l, ?_⟩
        rw [RangeMergeIterator.mergeAll_step heq, hl]
        rfl
  exact main (mergeMeasure base snap) base snap le_rfl

theorem toBatches_nil : toBatches [] = [] := by
  rw [toBatches]
  simp

theorem toBatches_small {runs : List ir.Map} (h1 : runs ≠ [])
    (h2 : runs.length ≤ BUFFER_LEN) : toBatches runs = [runs] := by
  rw [toBatches, dif_neg h1, List.take_of_length_le h2,
    List.drop_eq_nil_of_le h2, toBatches]
  simp

theorem toBatches_flatten (runs : List ir.Map) : (toBatches runs).flatten = runs := by
  have main : ∀ (n : Nat) (runs : List ir.Map), runs.length ≤ n →
      (toBatches runs).flatten = runs := by
    intro n
    induction n with
    | zero =>
      intro runs h
      have hr : runs = [] := List.length_eq_zero.mp (Nat.le_zero.mp h)
      subst hr
      rw [toBatches_nil]
      rfl
    | succ n ih =>
      intro runs h
      by_cases hr : runs = []
      · subst hr
        rw [toBatches_nil]
        rfl
      · rw [toBatches, dif_neg hr, List.flatten_cons,
          ih (runs.drop BUFFER_LEN) ?_, List.take_append_drop]
        have hpos : runs.length ≠ 0 := fun hz => hr (List.length_eq_zero.mp hz)
        rw [List.length_drop]
        have hb : 0 < BUFFER_LEN := by norm_num [BUFFER_LEN]
        omega
  exact main runs.length runs le_rfl

theorem foldl_add_len (l : List ir.Map) (a : Nat) :
    l.foldl (fun x run => x + run.len) a = a + (l.map ir.Map.len).sum := by
  induction l generalizing a with
  | nil => simp
  | cons x xs ih =>
    simp only [List.foldl_cons, List.map_cons, List.sum_cons, ih]
    omega

theorem consumeBatches_eq_sum (bs : List (List ir.Map)) :
    consumeBatches bs = (bs.flatten.map ir.Map.len).sum := by
  have aux : ∀ (bs : List (List ir.Map)) (a : Nat),
      bs.foldl (fun acc runs => runs.foldl (fun x run => x + run.len) acc) a =
        a + (bs.flatten.map ir.Map.len).sum := by
    intro bs
    induction bs with
    | nil => simp
    | cons b rest ih =>
      intro a
      rw [List.foldl_cons, foldl_add_len, ih, List.flatten_cons,
        List.map_append, List.sum_append]
      omega
  simpa using aux bs 0

theorem consumeBatches_toBatches (runs : List ir.Map) :
    consumeBatches (toBatches runs) = (runs.map ir.Map.len).sum := by
  rw [consumeBatches_eq_sum, toBatches_flatten]

theorem takeRun_spec :
    ∀ (entries : List (Nat × BlockTime)) (k0 : Nat) (v0 : BlockTime) (len : Nat)
      (r : MRange) (rest' : List (Nat × BlockTime)),
      takeRun k0 v0 len entries = (r, rest') →
      r.key = k0 ∧ r.bt = v0 ∧ len ≤ r.len ∧
      entries = ((List.range (r.len - len)).map
        (fun i => (k0 + len + i, (⟨v0.block + len + i, v0.time⟩ : BlockTime)))) ++ rest' ∧
      (∀ k1 v1 rest'', rest' = (k1, v1) :: rest'' →
        ¬ (k1 = k0 + r.len ∧ v1.block = v0.block + r.len ∧ v1.time = v0.time)) := by
  intro entries
  induction entries with
  | nil =>
    intro k0 v0 len r rest' h
    simp only [takeRun] at h
    obtain ⟨rfl, rfl⟩ : (⟨k0, v0, len⟩ : MRange) = r ∧
        ([] : List (Nat × BlockTime)) = rest' := by
      cases h
      exact ⟨rfl, rfl⟩
    refine ⟨rfl, rfl, le_rfl, by simp, ?_⟩
    intro k1 v1 rest'' hcontra
    cases hcontra
  | cons e es ih =>
    obtain ⟨k1, v1⟩ := e
    obtain ⟨vb, vt⟩ := v1
    intro k0 v0 len r rest' h
    simp only [takeRun] at h
    by_cases hc : k1 = k0 + len ∧ vb = v0.block + len ∧ vt = v0.time
    · rw [if_pos hc] at h
      obtain ⟨hck, hcb, hct⟩ := hc
      obtain ⟨h1, h2, h3, h4, h5⟩ := ih k0 v0 (len + 1) r rest' h
      refine ⟨h1, h2, by omega, ?_, h5⟩
      have hml : r.len - len = (r.len - (len + 1)) + 1 := by omega
      rw [hml, List.range_succ_eq_map, List.map_cons, List.map_map, h4,
        List.cons_append]
      congr 1
      · simp only [Prod.mk.injEq, BlockTime.mk.injEq]
        exact ⟨by omega, by omega, hct⟩
      · congr 1
        apply List.map_congr_left
        intro i _
        simp only [Function.comp_apply, Prod.mk.injEq, BlockTime.mk.injEq]
        refine ⟨by omega, by omega, ?_⟩
        trivial
    · rw [if_neg hc] at h
      obtain ⟨rfl, rfl⟩ : (⟨k0, v0, len⟩ : MRange) = r ∧
          ((k1, (⟨vb, vt⟩ : BlockTime)) :: es) = rest' := by
        cases h
        exact ⟨rfl, rfl⟩
      refine ⟨rfl, rfl, le_rfl, by simp, ?_⟩
      intro k1' v1' rest'' heq
      obtain ⟨rfl, rfl, rfl⟩ : k1 = k1' ∧ (⟨vb, vt⟩ : BlockTime) = v1' ∧ es = rest'' := by
        cases heq
        exact ⟨rfl, rfl, rfl⟩
      simpa using hc

/-! ### Claim theorems -/

/-- C1: Coverage conservation: for every pair of input devices whose
mapping streams are ordered and non-overlapping, the set of thin blocks
covered by the ranges emitted by `RangeMergeIterator::next` iterated to
exhaustion equals the union of the blocks covered by the origin's and the
snapshot's ranges, and the emitted ranges are pairwise disjoint (each
block is covered exactly once). -/
theorem claim_coverage_conservation (origin snap : MappingStream)
    (hwo : WfStream origin) (hws : WfStream snap) :
    ∃ merged, mergeAll origin snap = .ok merged ∧
      (∀ k, covers merged k ↔ covers origin k ∨ covers snap k) ∧
      List.Pairwise (fun a c => a.key + a.len ≤ c.key) merged := by
  obtain ⟨merged, hma, hmap, hpw, -, -⟩ :=
    RangeMergeIterator.mergeAll_spec origin snap hwo hws
  refine ⟨merged, hma, ?_, hpw⟩
  intro k
  constructor
  · intro h
    obtain ⟨v, hv⟩ := (covers_iff_exists_mapsTo merged k).mp h
    rcases (hmap k v).mp hv with h1 | ⟨-, h2⟩
    · exact Or.inr ((covers_iff_exists_mapsTo snap k).mpr ⟨v, h1⟩)
    · exact Or.inl ((covers_iff_exists_mapsTo origin k).mpr ⟨v, h2⟩)
  · intro h
    by_cases hcs : covers snap k
    · obtain ⟨v, hv⟩ := (covers_iff_exists_mapsTo snap k).mp hcs
      exact (covers_iff_exists_mapsTo merged k).mpr
        ⟨v, (hmap k v).mpr (Or.inl hv)⟩
    · rcases h with h | h
      · obtain ⟨v, hv⟩ := (covers_iff_exists_mapsTo origin k).mp h
        exact (covers_iff_exists_mapsTo merged k).mpr
          ⟨v, (hmap k v).mpr (Or.inr ⟨hcs, hv⟩)⟩
      · exact absurd h hcs

theorem claim_coverage_conservation_witness :
    ∃ merged, mergeAll [⟨0, ⟨10, 1⟩, 2⟩] [⟨1, ⟨20, 2⟩, 2⟩] = .ok merged ∧
      (∀ k, covers merged k ↔
        covers [⟨0, ⟨10, 1⟩, 2⟩] k ∨ covers [⟨1, ⟨20, 2⟩, 2⟩] k) ∧
      List.Pairwise (fun a c => a.key + a.len ≤ c.key) merged :=
  claim_coverage_conservation _ _ ⟨List.chain'_singleton _, by decide⟩
    ⟨List.chain'_singleton _, by decide⟩

/-- C2: Snapshot precedence: for every thin key `k` mapped by both the
origin and the snapshot (well-formed streams), the mapping at `k` in the
stream emitted by `RangeMergeIterator::next` equals the snapshot's mapping
at `k`. -/
theorem claim_snapshot_precedence (origin snap : MappingStream) (k : Nat)
    (hwo : WfStream origin) (hws : WfStream snap)
    (hco : covers origin k) (hcs : covers snap k) :
    ∃ merged, mergeAll origin snap = .ok merged ∧
      thinLookup merged k = thinLookup snap k := by
  obtain ⟨merged, hma, hmap, hpw, -, -⟩ :=
    RangeMergeIterator.mergeAll_spec origin snap hwo hws
  obtain ⟨v, hv⟩ := (covers_iff_exists_mapsTo snap k).mp hcs
  refine ⟨merged, hma, ?_⟩
  have h1 : thinLookup merged k = some v :=
    (thinLookup_eq_some_iff hpw).mpr ((hmap k v).mpr (Or.inl hv))
  have h2 : thinLookup snap k = some v :=
    (thinLookup_eq_some_iff (wf_pairwise hws)).mpr hv
  rw [h1, h2]

theorem claim_snapshot_precedence_witness :
    ∃ merged, mergeAll [⟨0, ⟨10, 1⟩, 3⟩] [⟨1, ⟨20, 2⟩, 1⟩] = .ok merged ∧
      thinLookup merged 1 = thinLookup [⟨1, ⟨20, 2⟩, 1⟩] 1 :=
  claim_snapshot_precedence _ _ 1 ⟨List.chain'_singleton _, by decide⟩
    ⟨List.chain'_singleton _, by decide⟩ (by decide) (by decide)

/-- C4: Mapped-blocks accuracy: whenever `merge` succeeds, the
`mapped_blocks` value finally written into the output `DeviceDetail` (the
consumer's accumulated total, patched in by `update_device_details`)
equals the sum of `len` over all ranges emitted by the merge. -/
theorem claim_mapped_blocks_accuracy (dev : ir.Device)
    (origin_tree snap_tree : MappingStream) (out : OutMetadata)
    (h : merge dev origin_tree snap_tree = .ok out) :
    ∃ emitted, mergeAll origin_tree snap_tree = .ok emitted ∧
      out.details_mapped_blocks = (emitted.map MRange.len).sum := by
  rcases hma : mergeAll origin_tree snap_tree with e | emitted
  · simp [merge, hma] at h
  · refine ⟨emitted, rfl, ?_⟩
    have hme : merge dev origin_tree snap_tree = .ok
        { device := dev
          mappings := (toBatches (emitted.map rangeToMap)).flatten
          details_mapped_blocks := consumeBatches (toBatches (emitted.map rangeToMap)) } := by
      simp [merge, hma, update_device_details]
    rw [hme] at h
    cases h
    show consumeBatches (toBatches (emitted.map rangeToMap)) = (emitted.map MRange.len).sum
    rw [consumeBatches_toBatches, List.map_map]
    rfl

theorem claim_mapped_blocks_accuracy_witness :
    ∃ emitted, mergeAll [] [] = .ok emitted ∧
      (⟨⟨1, 0, 0, 0, 0⟩, [], 0⟩ : OutMetadata).details_mapped_blocks =
        (emitted.map MRange.len).sum := by
  apply claim_mapped_blocks_accuracy ⟨1, 0, 0, 0, 0⟩ [] []
  have hma : mergeAll ([] : MappingStream) [] = .ok [] :=
    RangeMergeIterator.mergeAll_none RangeMergeIterator.next_nil
  simp [merge, hma, toBatches_nil, consumeBatches, update_device_details]

/-- C5 (counterexample): `consume` with a delta exceeding the head length
fails with the error string "delta too lone", not "delta too large" as the
claim states. -/
theorem claim_consume_error_message_counterexample :
    MappingStream.consume [⟨0, ⟨0, 0⟩, 1⟩] 2 = .error "delta too lone" ∧
    (Except.error "delta too lone" :
      Except String (Option MRange × MappingStream)) ≠ .error "delta too large" := by
  constructor
  · rfl
  · intro hcon
    have h' : "delta too lone" = "delta too large" := by
      injection hcon
    exact absurd h' (by decide)

/-- C5 (amended): `MappingStream::consume(d)` on head range
`R = (k, v, l)`: if `d = l` it returns `R` and advances the iterator; if
`1 ≤ d < l` it returns `(k, v, d)` and the head becomes
`(k+d, v.block+d, v.time, l-d)` without advancing the iterator; if `d > l`
it fails with a "delta too lone" error (the source's spelling of the
"delta too large" error). -/
theorem claim_consume_contract (r : MRange) (rest : List MRange) (d : Nat) :
    (d = r.len → MappingStream.consume (r :: rest) d = .ok (some r, rest)) ∧
    (1 ≤ d → d < r.len → MappingStream.consume (r :: rest) d =
      .ok (some ⟨r.key, r.bt, d⟩,
           ⟨r.key + d, ⟨r.bt.block + d, r.bt.time⟩, r.len - d⟩ :: rest)) ∧
    (r.len < d → MappingStream.consume (r :: rest) d = .error "delta too lone") := by
  refine ⟨?_, ?_, ?_⟩
  · intro h
    subst h
    simp [MappingStream.consume]
  · intro h1 h2
    have h3 : ¬ (r.len < d) := by omega
    have h4 : ¬ (d = r.len) := by omega
    simp [MappingStream.consume, h3, h4]
  · intro h
    simp [MappingStream.consume, h]

theorem claim_consume_contract_witness :
    MappingStream.consume [⟨5, ⟨9, 7⟩, 3⟩] 3 = .ok (some ⟨5, ⟨9, 7⟩, 3⟩, []) ∧
    MappingStream.consume [⟨5, ⟨9, 7⟩, 3⟩] 2 =
      .ok (some ⟨5, ⟨9, 7⟩, 2⟩, [⟨7, ⟨11, 7⟩, 1⟩]) ∧
    MappingStream.consume [⟨5, ⟨9, 7⟩, 3⟩] 4 = .error "delta too lone" :=
  ⟨(claim_consume_contract ⟨5, ⟨9, 7⟩, 3⟩ [] 3).1 rfl,
   (claim_consume_contract ⟨5, ⟨9, 7⟩, 3⟩ [] 2).2.1 (by decide) (by decide),
   (claim_consume_contract ⟨5, ⟨9, 7⟩, 3⟩ [] 4).2.2 (by decide)⟩

/-- C10: on a head range of positive length, `consume(0)` succeeds,
returns a zero-length range `(k, v, 0)` and leaves the head (and the
iterator) unchanged; `skip(0)` succeeds leaving the head unchanged; a
delta of `0` is never rejected as an error. -/
theorem claim_consume_zero (r : MRange) (rest : List MRange) (h : 1 ≤ r.len) :
    MappingStream.consume (r :: rest) 0 = .ok (some ⟨r.key, r.bt, 0⟩, r :: rest) ∧
    MappingStream.skip (r :: rest) 0 = .ok (r :: rest) := by
  obtain ⟨rk, ⟨rb, rt⟩, rl⟩ := r
  have h' : 1 ≤ rl := h
  have h1 : ¬ (rl < 0) := by omega
  have h2 : ¬ ((0 : Nat) = rl) := by omega
  constructor
  · simp [MappingStream.consume, h1, h2]
  · simp [MappingStream.skip, h1, h2]

theorem claim_consume_zero_witness :
    MappingStream.consume [⟨3, ⟨7, 2⟩, 4⟩] 0 =
      .ok (some ⟨3, ⟨7, 2⟩, 0⟩, [⟨3, ⟨7, 2⟩, 4⟩]) ∧
    MappingStream.skip [⟨3, ⟨7, 2⟩, 4⟩] 0 = .ok [⟨3, ⟨7, 2⟩, 4⟩] :=
  claim_consume_zero ⟨3, ⟨7, 2⟩, 4⟩ [] (by decide)

/-- C8: Termination of the merge: on well-formed streams, every call of
`RangeMergeIterator::next` that emits a range strictly decreases the
combined remaining length of the base and overlay streams (the
classification loop consumes or skips at least one block per emission), so
repeated calls reach `None` after at most `sumLen base + sumLen snap`
steps. -/
theorem claim_merge_terminates (base snap : MappingStream)
    (hwb : WfStream base) (hws : WfStream snap) :
    (∀ r b' s', RangeMergeIterator.next base snap = .ok (some r, b', s') →
      sumLen b' + sumLen s' < sumLen base + sumLen snap) ∧
    ∃ n, n ≤ sumLen base + sumLen snap ∧
      iterMerge n (base, snap) = .ok (none, [], []) := by
  constructor
  · intro r b' s' h
    exact (RangeMergeIterator.next_some_spec base snap hwb hws r b' s' h).2.2.2.2.2.2.1
  · have main : ∀ (fuel : Nat) (b s : MappingStream),
        sumLen b + sumLen s ≤ fuel → WfStream b → WfStream s →
        ∃ n, n ≤ sumLen b + sumLen s ∧ iterMerge n (b, s) = .ok (none, [], []) := by
      intro fuel
      induction fuel with
      | zero =>
        intro b s hm hwb hws
        have hb : b = [] := by
          cases b with
          | nil => rfl
          | cons x xs =>
            exfalso
            have hx := ((wf_cons x xs).mp hwb).2.1
            rw [sumLen_cons] at hm
            omega
        have hs : s = [] := by
          cases s with
          | nil => rfl
          | cons x xs =>
            exfalso
            have hx := ((wf_cons x xs).mp hws).2.1
            subst hb
            rw [sumLen_cons] at hm
            simp [sumLen_nil] at hm
            omega
        subst hb
        subst hs
        exact ⟨0, Nat.le_refl _, RangeMergeIterator.next_nil⟩
      | succ fuel ih =>
        intro b s hm hwb hws
        obtain ⟨r, b', s', heq, hnone, -⟩ := RangeMergeIterator.next_total b s
        cases r with
        | none =>
          obtain ⟨rfl, rfl, rfl, rfl⟩ := hnone rfl
          exact ⟨0, Nat.zero_le _, heq⟩
        | some r =>
          obtain ⟨W1, W2, -, -, -, -, W7, -⟩ :=
            RangeMergeIterator.next_some_spec b s hwb hws r b' s' heq
          have hm' : sumLen b' + sumLen s' ≤ fuel := by omega
          obtain ⟨n, hn1, hn2⟩ := ih b' s' hm' W1 W2
          refine ⟨n + 1, by omega, ?_⟩
          show iterMerge (n + 1) (b, s) = .ok (none, [], [])
          simp only [iterMerge, heq]
          exact hn2
    exact main (sumLen base + sumLen snap) base snap le_rfl hwb hws

theorem claim_merge_terminates_witness :
    (∀ r b' s',
      RangeMergeIterator.next [⟨0, ⟨10, 1⟩, 2⟩] [⟨1, ⟨20, 2⟩, 2⟩] =
        .ok (some r, b', s') →
      sumLen b' + sumLen s' <
        sumLen [⟨0, ⟨10, 1⟩, 2⟩] + sumLen [⟨1, ⟨20, 2⟩, 2⟩]) ∧
    ∃ n, n ≤ sumLen [⟨0, ⟨10, 1⟩, 2⟩] + sumLen [⟨1, ⟨20, 2⟩, 2⟩] ∧
      iterMerge n ([⟨0, ⟨10, 1⟩, 2⟩], [⟨1, ⟨20, 2⟩, 2⟩]) = .ok (none, [], []) :=
  claim_merge_terminates _ _ ⟨List.chain'_singleton _, by decide⟩
    ⟨List.chain'_singleton _, by decide⟩

/-- C9: In the single-device dump path (no snapshot id, or equal origin
and snapshot roots), the `mapped_blocks` finally present in the output
details is the value read from the input details tree for the chosen
device, unchanged — `dump_single_device` performs no post-restore patch,
unlike the merge path. -/
theorem claim_dump_preserves_mapped_blocks (md : InputMetadata)
    (origin_id oroot : Nat) (odet : DeviceDetail)
    (ho : get_device_root_and_details origin_id md.roots md.details =
      .ok (oroot, odet)) :
    (∀ rb : Bool, merge_thins_ md origin_id none rb =
      .ok (dump_single_device (build_output_device origin_id odet)
        (md.trees oroot)) ∧
      (dump_single_device (build_output_device origin_id odet)
        (md.trees oroot)).details_mapped_blocks = odet.mapped_blocks) ∧
    (∀ (rb : Bool) (snap_id : Nat) (sdet : DeviceDetail),
      get_device_root_and_details snap_id md.roots md.details =
        .ok (oroot, sdet) →
      ∃ out, merge_thins_ md origin_id (some snap_id) rb = .ok out ∧
        out.details_mapped_blocks =
          (if rb then sdet.mapped_blocks else odet.mapped_blocks)) := by
  constructor
  · intro rb
    constructor
    · simp [merge_thins_, ho]
    · simp [dump_single_device, build_output_device]
  · intro rb snap_id sdet hs
    refine ⟨dump_single_device
      (if rb then build_output_device snap_id sdet
       else build_output_device origin_id odet) (md.trees oroot), ?_, ?_⟩
    · simp [merge_thins_, ho, hs]
    · cases rb <;> simp [dump_single_device, build_output_device]

/-- Concrete input metadata with two devices sharing one mapping root,
used to instantiate the dump-path claims. -/
def exMdShared : InputMetadata :=
  { roots := [(1, 11), (2, 11)]
    details := [(1, ⟨5, 0, 0, 0⟩), (2, ⟨8, 0, 0, 0⟩)]
    trees := fun root => if root = 11 then [⟨0, ⟨100, 1⟩, 10⟩] else [] }

theorem claim_dump_preserves_mapped_blocks_witness :
    (merge_thins_ exMdShared 1 none true =
      .ok (dump_single_device (build_output_device 1 ⟨5, 0, 0, 0⟩)
        (exMdShared.trees 11)) ∧
      (dump_single_device (build_output_device 1 ⟨5, 0, 0, 0⟩)
        (exMdShared.trees 11)).details_mapped_blocks =
        (⟨5, 0, 0, 0⟩ : DeviceDetail).mapped_blocks) ∧
    ∃ out, merge_thins_ exMdShared 1 (some 2) false = .ok out ∧
      out.details_mapped_blocks =
        (if false then (⟨8, 0, 0, 0⟩ : DeviceDetail).mapped_blocks
         else (⟨5, 0, 0, 0⟩ : DeviceDetail).mapped_blocks) := by
  have h := claim_dump_preserves_mapped_blocks exMdShared 1 11 ⟨5, 0, 0, 0⟩ rfl
  exact ⟨h.1 true, h.2 false 2 ⟨8, 0, 0, 0⟩ rfl⟩

/-- The run-coalescing rule of spec §4.2 between two adjacent ranges:
keys adjacent, data blocks adjacent, and equal times. -/
def mergeableAdj (a b : MRange) : Prop :=
  b.key = a.key + a.len ∧ b.bt.block = a.bt.block + a.len ∧ b.bt.time = a.bt.time

instance (a b : MRange) : Decidable (mergeableAdj a b) :=
  inferInstanceAs (Decidable (b.key = a.key + a.len ∧
    b.bt.block = a.bt.block + a.len ∧ b.bt.time = a.bt.time))

/-- C6 (counterexample): two well-formed input streams for which the merge
emits adjacent ranges that ARE mergeable under the coalescing rule: the
origin `[0, 10)` at data 100 is split around the snapshot `[2, 3)` at data
102 (which coincides with the origin's own mapping there), leaving
`[0,2)@100`, `[2,3)@102`, `[3,10)@103`, all pairwise coalescible. -/
theorem claim_run_maximality_counterexample :
    WfStream [⟨0, ⟨100, 5⟩, 10⟩] ∧ WfStream [⟨2, ⟨102, 5⟩, 1⟩] ∧
    mergeAll [⟨0, ⟨100, 5⟩, 10⟩] [⟨2, ⟨102, 5⟩, 1⟩] =
      .ok [⟨0, ⟨100, 5⟩, 2⟩, ⟨2, ⟨102, 5⟩, 1⟩, ⟨3, ⟨103, 5⟩, 7⟩] ∧
    mergeableAdj ⟨0, ⟨100, 5⟩, 2⟩ ⟨2, ⟨102, 5⟩, 1⟩ := by
  refine ⟨⟨List.chain'_singleton _, by decide⟩,
    ⟨List.chain'_singleton _, by decide⟩, ?_, by decide⟩
  have h1 : RangeMergeIterator.next [⟨0, ⟨100, 5⟩, 10⟩] [⟨2, ⟨102, 5⟩, 1⟩] =
      .ok (some ⟨0, ⟨100, 5⟩, 2⟩, [⟨2, ⟨102, 5⟩, 8⟩], [⟨2, ⟨102, 5⟩, 1⟩]) := by
    simp [RangeMergeIterator.next, RangeMergeIterator.ends_before_started,
      RangeMergeIterator.overlays_tail, RangeMergeIterator.overlays_head,
      RangeMergeIterator.overlays_all, RangeMergeIterator.skipCovered,
      MappingStream.consume, MappingStream.consume_all, MappingStream.skip]
  have h2 : RangeMergeIterator.next [⟨2, ⟨102, 5⟩, 8⟩] [⟨2, ⟨102, 5⟩, 1⟩] =
      .ok (some ⟨2, ⟨102, 5⟩, 1⟩, [⟨3, ⟨103, 5⟩, 7⟩], []) := by
    simp [RangeMergeIterator.next, RangeMergeIterator.ends_before_started,
      RangeMergeIterator.overlays_tail, RangeMergeIterator.overlays_head,
      RangeMergeIterator.overlays_all, RangeMergeIterator.skipCovered,
      MappingStream.consume, MappingStream.consume_all, MappingStream.skip]
  have h3 : RangeMergeIterator.next [⟨3, ⟨103, 5⟩, 7⟩] ([] : MappingStream) =
      .ok (some ⟨3, ⟨103, 5⟩, 7⟩, [], []) := RangeMergeIterator.next_drain_base
  rw [RangeMergeIterator.mergeAll_step h1, RangeMergeIterator.mergeAll_step h2,
    RangeMergeIterator.mergeAll_step h3,
    RangeMergeIterator.mergeAll_none RangeMergeIterator.next_nil]
  rfl

/-- C6 (amended): for well-formed input streams the emitted range stream
is strictly ordered by `thin_begin` and non-overlapping; adjacent emitted
ranges may however be mergeable under the coalescing rule of §4.2 (the
merger does not re-coalesce across splits, as the counterexample shows). -/
theorem claim_emitted_ordered_disjoint (origin snap : MappingStream)
    (hwo : WfStream origin) (hws : WfStream snap) :
    ∃ merged, mergeAll origin snap = .ok merged ∧
      List.Chain' (fun a b => a.key + a.len ≤ b.key) merged ∧
      List.Chain' (fun a b => a.key < b.key) merged := by
  obtain ⟨merged, hma, -, hpw, hlen1, -⟩ :=
    RangeMergeIterator.mergeAll_spec origin snap hwo hws
  refine ⟨merged, hma, hpw.chain', ?_⟩
  have hpw2 : List.Pairwise (fun a b => a.key < b.key) merged := by
    refine hpw.imp_of_mem ?_
    intro a b ha _ hr
    have := hlen1 a ha
    omega
  exact hpw2.chain'

theorem claim_emitted_ordered_disjoint_witness :
    ∃ merged, mergeAll [⟨0, ⟨100, 5⟩, 10⟩] [⟨2, ⟨102, 5⟩, 1⟩] = .ok merged ∧
      List.Chain' (fun a b => a.key + a.len ≤ b.key) merged ∧
      List.Chain' (fun a b => a.key < b.key) merged :=
  claim_emitted_ordered_disjoint _ _ ⟨List.chain'_singleton _, by decide⟩
    ⟨List.chain'_singleton _, by decide⟩

/-- Concrete input metadata with two devices on distinct roots whose
streams both map thin key 0, with different data blocks and times. -/
def exMd : InputMetadata :=
  { roots := [(1, 11), (2, 22)]
    details := [(1, ⟨5, 0, 0, 0⟩), (2, ⟨8, 0, 0, 0⟩)]
    trees := fun root =>
      if root = 11 then [⟨0, ⟨100, 1⟩, 10⟩]
      else if root = 22 then [⟨0, ⟨200, 2⟩, 10⟩]
      else [] }

/-- C3 (counterexample): `merge_thins_` with `rebase = true` does not swap
the two streams: on `exMd`, where the origin (device 1) maps thin key 0 to
data 100 at time 1 and the snapshot (device 2) maps it to data 200 at time
2, the rebase merge emits the snapshot's mapping `(0 ↦ 200, time 2)` —
not the origin's as the claim predicts — and only the output device record
comes from the snapshot. -/
theorem claim_rebase_counterexample :
    merge_thins_ exMd 1 (some 2) true =
      .ok ⟨⟨2, 8, 0, 0, 0⟩, [⟨0, 200, 2, 10⟩], 10⟩ ∧
    thinLookup (exMd.trees 11) 0 = some ⟨100, 1⟩ ∧
    thinLookup (exMd.trees 22) 0 = some ⟨200, 2⟩ ∧
    ((⟨200, 2⟩ : BlockTime) ≠ ⟨100, 1⟩) := by
  have hn1 : RangeMergeIterator.next [⟨0, ⟨100, 1⟩, 10⟩] [⟨0, ⟨200, 2⟩, 10⟩] =
      .ok (some ⟨0, ⟨200, 2⟩, 10⟩, [], []) := by
    simp [RangeMergeIterator.next, RangeMergeIterator.ends_before_started,
      RangeMergeIterator.overlays_tail, RangeMergeIterator.overlays_head,
      RangeMergeIterator.overlays_all, RangeMergeIterator.skipCovered,
      MappingStream.consume, MappingStream.consume_all, MappingStream.skip]
  have hm : mergeAll [⟨0, ⟨100, 1⟩, 10⟩] [⟨0, ⟨200, 2⟩, 10⟩] =
      .ok [⟨0, ⟨200, 2⟩, 10⟩] := by
    rw [RangeMergeIterator.mergeAll_step hn1,
      RangeMergeIterator.mergeAll_none RangeMergeIterator.next_nil]
    rfl
  refine ⟨?_, rfl, rfl, by decide⟩
  have htrees1 : exMd.trees 11 = [⟨0, ⟨100, 1⟩, 10⟩] := rfl
  have htrees2 : exMd.trees 22 = [⟨0, ⟨200, 2⟩, 10⟩] := rfl
  have hT : merge_thins_ exMd 1 (some 2) true =
      merge (build_output_device 2 ⟨8, 0, 0, 0⟩) (exMd.trees 11) (exMd.trees 22) := by
    have ho : get_device_root_and_details 1 exMd.roots exMd.details =
        .ok (11, ⟨5, 0, 0, 0⟩) := rfl
    have hs : get_device_root_and_details 2 exMd.roots exMd.details =
        .ok (22, ⟨8, 0, 0, 0⟩) := rfl
    simp [merge_thins_, ho, hs]
  rw [hT, htrees1, htrees2]
  have hb : toBatches [(⟨0, 200, 2, 10⟩ : ir.Map)] = [[⟨0, 200, 2, 10⟩]] := by
    apply toBatches_small
    · decide
    · decide
  simp [merge, hm, update_device_details, hb, build_output_device,
    consumeBatches, rangeToMap, List.foldl_cons, List.foldl_nil]

/-- C3 (amended): rebase mode does not swap the base and overlay streams:
with identical stream inputs, `merge_thins_` with `rebase = true` emits
exactly the mappings and mapped-blocks total of the `rebase = false` run —
the snapshot still masks the origin on overlaps — and rebase only selects
the snapshot's device id and `DeviceDetail` for the output device record. -/
theorem claim_rebase_amended (md : InputMetadata)
    (origin_id snap_id oroot sroot : Nat) (odet sdet : DeviceDetail)
    (ho : get_device_root_and_details origin_id md.roots md.details =
      .ok (oroot, odet))
    (hs : get_device_root_and_details snap_id md.roots md.details =
      .ok (sroot, sdet))
    (hne : oroot ≠ sroot) :
    ∃ emitted outT outF,
      mergeAll (md.trees oroot) (md.trees sroot) = .ok emitted ∧
      merge_thins_ md origin_id (some snap_id) true = .ok outT ∧
      merge_thins_ md origin_id (some snap_id) false = .ok outF ∧
      outT.device = build_output_device snap_id sdet ∧
      outF.device = build_output_device origin_id odet ∧
      outT.mappings = outF.mappings ∧
      outT.details_mapped_blocks = outF.details_mapped_blocks := by
  obtain ⟨emitted, hma⟩ := mergeAll_isOk (md.trees oroot) (md.trees sroot)
  have hmerge : ∀ dev : ir.Device, merge dev (md.trees oroot) (md.trees sroot) =
      .ok ⟨dev, (toBatches (emitted.map rangeToMap)).flatten,
        consumeBatches (toBatches (emitted.map rangeToMap))⟩ := by
    intro dev
    simp [merge, hma, update_device_details]
  refine ⟨emitted,
    ⟨build_output_device snap_id sdet,
     (toBatches (emitted.map rangeToMap)).flatten,
     consumeBatches (toBatches (emitted.map rangeToMap))⟩,
    ⟨build_output_device origin_id odet,
     (toBatches (emitted.map rangeToMap)).flatten,
     consumeBatches (toBatches (emitted.map rangeToMap))⟩,
    hma, ?_, ?_, rfl, rfl, rfl, rfl⟩
  · simp [merge_thins_, ho, hs, hne, hmerge]
  · simp [merge_thins_, ho, hs, hne, hmerge]

theorem claim_rebase_amended_witness :
    ∃ emitted outT outF,
      mergeAll (exMd.trees 11) (exMd.trees 22) = .ok emitted ∧
      merge_thins_ exMd 1 (some 2) true = .ok outT ∧
      merge_thins_ exMd 1 (some 2) false = .ok outF ∧
      outT.device = build_output_device 2 ⟨8, 0, 0, 0⟩ ∧
      outF.device = build_output_device 1 ⟨5, 0, 0, 0⟩ ∧
      outT.mappings = outF.mappings ∧
      outT.details_mapped_blocks = outF.details_mapped_blocks :=
  claim_rebase_amended exMd 1 2 11 22 ⟨5, 0, 0, 0⟩ ⟨8, 0, 0, 0⟩ rfl rfl
    (by decide)

/-- C7: the spec-modelled `MappingIterator::next_range` returns `None` at
the end of the leaves and otherwise the maximal run starting at the
current entry `(k0, v0)`: the consumed entries are exactly the points
`(k0+i, v0.block+i, v0.time)` for `i < len`, and the first remaining entry
(if any) fails the coalescing test `k1 = k0+len ∧ block adjacency ∧ equal
time`. -/
theorem claim_next_range_coalescing :
    next_range ([] : List (Nat × BlockTime)) = none ∧
    ∀ (k0 : Nat) (v0 : BlockTime) (rest : List (Nat × BlockTime))
      (r : MRange) (rest' : List (Nat × BlockTime)),
      next_range ((k0, v0) :: rest) = some (r, rest') →
      r.key = k0 ∧ r.bt = v0 ∧ 1 ≤ r.len ∧
      (k0, v0) :: rest = runPoints r ++ rest' ∧
      (∀ k1 v1 rest'', rest' = (k1, v1) :: rest'' →
        ¬ (k1 = r.key + r.len ∧ v1.block = r.bt.block + r.len ∧
           v1.time = r.bt.time)) := by
  constructor
  · rfl
  · intro k0 v0 rest r rest' h
    have ht : takeRun k0 v0 1 rest = (r, rest') := by
      simpa [next_range] using h
    obtain ⟨h1, h2, h3, h4, h5⟩ := takeRun_spec rest k0 v0 1 r rest' ht
    refine ⟨h1, h2, h3, ?_, ?_⟩
    · rw [h4, runPoints, h1, h2]
      have hml : r.len = (r.len - 1) + 1 := by omega
      conv_rhs => rw [hml]
      have hmap : (List.range (r.len - 1)).map
          ((fun i => (k0 + i, (⟨v0.block + i, v0.time⟩ : BlockTime))) ∘ Nat.succ) =
          (List.range (r.len - 1)).map
          (fun i => (k0 + 1 + i, (⟨v0.block + 1 + i, v0.time⟩ : BlockTime))) := by
        apply List.map_congr_left
        intro i _
        simp only [Function.comp_apply, Prod.mk.injEq, BlockTime.mk.injEq]
        refine ⟨by omega, by omega, ?_⟩
        trivial
      rw [List.range_succ_eq_map, List.map_cons, List.map_map, hmap,
        List.cons_append]
      rfl
    · intro k1 v1 rest'' heq
      have hmax := h5 k1 v1 rest'' heq
      rw [h1, h2]
      exact hmax

theorem claim_next_range_coalescing_witness :
    next_range [(5, ⟨9, 1⟩), (6, ⟨10, 1⟩), (9, ⟨20, 1⟩)] =
      some (⟨5, ⟨9, 1⟩, 2⟩, [(9, ⟨20, 1⟩)]) ∧
    ((⟨5, ⟨9, 1⟩, 2⟩ : MRange).key = 5 ∧
     (⟨5, ⟨9, 1⟩, 2⟩ : MRange).bt = ⟨9, 1⟩ ∧
     1 ≤ (⟨5, ⟨9, 1⟩, 2⟩ : MRange).len ∧
     ((5 : Nat), (⟨9, 1⟩ : BlockTime)) :: [(6, ⟨10, 1⟩), (9, ⟨20, 1⟩)] =
       runPoints ⟨5, ⟨9, 1⟩, 2⟩ ++ [(9, ⟨20, 1⟩)] ∧
     (∀ k1 v1 rest'', [((9 : Nat), (⟨20, 1⟩ : BlockTime))] = (k1, v1) :: rest'' →
       ¬ (k1 = (⟨5, ⟨9, 1⟩, 2⟩ : MRange).key + (⟨5, ⟨9, 1⟩, 2⟩ : MRange).len ∧
          v1.block = (⟨5, ⟨9, 1⟩, 2⟩ : MRange).bt.block +
            (⟨5, ⟨9, 1⟩, 2⟩ : MRange).len ∧
          v1.time = (⟨5, ⟨9, 1⟩, 2⟩ : MRange).bt.time))) :=
  ⟨rfl, claim_next_range_coalescing.2 5 ⟨9, 1⟩ [(6, ⟨10, 1⟩), (9, ⟨20, 1⟩)]
    ⟨5, ⟨9, 1⟩, 2⟩ [(9, ⟨20, 1⟩)] rfl⟩
